import Mathlib

/-!
Shallow embedding of the binary search tree library (src/bst.h, implementation
section) and proofs of the specified properties.

The C library stores heap-allocated nodes `bst_node { void* data; left; right }`
owned by a `bst { data_size; root; compare; free }`.  Ownership is strict (each
node is reachable through exactly one link), so the node hierarchy is modelled
by an inductive tree `CTree`, a `NULL` node pointer by the `leaf` constructor,
and the user comparison function `orderFun` by `cmp : α → α → Int`.  The fixed
`data_size`, the allocation calls and the `free`/cleanup hook have no bearing on
the structural claims and are not modelled; the value a node's `data` pointer
holds is modelled directly as the node's `α` component (elements are plain
copied blobs, never shared between nodes).

Two places in the source leave the program state undefined, and the embedding
makes that explicit instead of guessing a value:
* `bst_search_rec`'s two descending branches call recursively but drop the
  result and fall off the end of a non-void function, so the pointer the caller
  receives is indeterminate (C11 6.9.1p12); modelled as `none`.
* `bst_remove` ignores the node pointer returned by `bst_remove_rec`, so when
  the top-level call destroys the root node itself, `tree->root` keeps pointing
  into freed memory; modelled as `none` (the tree state is undefined).
-/

namespace BST

/-- A node hierarchy: `leaf` is the `NULL` node pointer, `node d l r` is a
`bst_node` whose `data` holds (a copy of) `d` and whose `left`/`right` point to
`l`/`r`. -/
inductive CTree (α : Type) where
  | leaf : CTree α
  | node : α → CTree α → CTree α → CTree α
deriving DecidableEq

open CTree

variable {α : Type}

/-- Result of running a C entry point whose effects can fail before producing a
defined tree: `assertFail` is a failed `assert` (process abort), `undef` is
undefined behavior (e.g. `memcpy` from `NULL`). -/
inductive CResult (β : Type) where
  | ok : β → CResult β
  | assertFail : CResult β
  | undef : CResult β
deriving DecidableEq

/-- `bst_size_rec(current)`: `0` for `NULL`, else `1 + size(left) + size(right)`. -/
def bst_size_rec : CTree α → Nat
  | leaf => 0
  | node _ l r => 1 + bst_size_rec l + bst_size_rec r

/-- `bst_size(tree)`: `bst_size_rec(tree->root)` when the root exists, else `0`. -/
def bst_size (t : CTree α) : Nat :=
  match t with
  | leaf => 0
  | node d l r => bst_size_rec (node d l r)

/-- `bst_add_rec(compare, current, new)`: when `compare(current->data, new->data)
>= 0` descend left, else right.  The C branch `if(!current->left)
current->left = new` — attaching the fresh node at an absent child — coincides
with recursing into that absent child, which the `leaf` equation returns as the
fresh node `node nw leaf leaf` (the node built by `bst_create_node`). -/
def bst_add_rec (cmp : α → α → Int) (nw : α) : CTree α → CTree α
  | leaf => node nw leaf leaf
  | node d l r =>
    if 0 ≤ cmp d nw then node d (bst_add_rec cmp nw l) r
    else node d l (bst_add_rec cmp nw r)

/-- `bst_add(tree, element)` on a non-`NULL` tree with a non-`NULL` element:
if the root is absent the fresh node becomes the root, else `bst_add_rec`
runs from the root. -/
def bst_add (cmp : α → α → Int) (t : CTree α) (x : α) : CTree α :=
  match t with
  | leaf => node x leaf leaf
  | node d l r => bst_add_rec cmp x (node d l r)

/-- `bst_create_node(data_size, element)`: copies `data_size` bytes from
`element`.  There is no check on `element`; when it is `NULL` the `memcpy`
reads from the null pointer with `data_size > 0`, which is undefined
behavior — no assert fires. -/
def bst_create_node (element : Option α) : CResult α :=
  match element with
  | none => CResult.undef
  | some x => CResult.ok x

/-- `bst_add(tree, element)` at the C level, tracking null pointers:
`assert(tree)` aborts on a `NULL` tree; then `bst_create_node` runs with no
check on `element`. -/
def bst_add_c (cmp : α → α → Int) (tree : Option (CTree α)) (element : Option α) :
    CResult (CTree α) :=
  match tree with
  | none => CResult.assertFail
  | some t =>
    match bst_create_node element with
    | CResult.ok x => CResult.ok (bst_add cmp t x)
    | CResult.assertFail => CResult.assertFail
    | CResult.undef => CResult.undef

/-- `bst_search_rec(compare, current, element)`.  The source reads:
`if (cmp > 0) bst_search_rec(left); else if (cmp < 0) bst_search_rec(right);
else return current;` — the two descending branches drop the recursive result
and reach the closing brace of a non-void function, so the value the caller
receives is indeterminate, modelled as `none`.  A defined return `v` is
`some v`, with `v : Option (CTree α)` the returned node pointer
(`none` = `NULL`). -/
def bst_search_rec (cmp : α → α → Int) : CTree α → α → Option (Option (CTree α))
  | leaf, _ => some none
  | node d l r, e =>
    if 0 < cmp d e then none
    else if cmp d e < 0 then none
    else some (some (node d l r))

/-- `bst_search(tree, element)`: `NULL` for an empty tree, else
`bst_search_rec` from the root. -/
def bst_search (cmp : α → α → Int) (t : CTree α) (e : α) :
    Option (Option (CTree α)) :=
  match t with
  | leaf => some none
  | node d l r => bst_search_rec cmp (node d l r) e

/-- `bst_iter_rec(current, function)`: the in-order trace of values passed to
`function` — left subtree, then `current->data`, then right subtree. -/
def bst_iter_rec : CTree α → List α
  | leaf => []
  | node d l r => bst_iter_rec l ++ d :: bst_iter_rec r

/-- `bst_iter(tree, function)`: the trace of visited values; nothing happens on
an empty tree. -/
def bst_iter (t : CTree α) : List α :=
  match t with
  | leaf => []
  | node d l r => bst_iter_rec (node d l r)

/-- `find_max(current)` on the node `(d, l, r)`: if `current->right` is `NULL`
return `current` (whose data is `d`), else walk right. -/
def find_max (d : α) : CTree α → α
  | leaf => d
  | node d2 _ r2 => find_max d2 r2

/-- `bst_remove_rec(tree, current, element)` as a function from the subtree
under `current` to the subtree the returned pointer designates (the C code's
`current->left = bst_remove_rec(...)` child reassignments become the
reconstructed `node`).  Branches follow the source: strictly greater → left,
strictly less → right, else the match is resolved by its child count; in the
two-children case the node's data is overwritten with the left subtree's
rightmost value (`find_max`) and that value is removed from the left subtree
by the same algorithm. -/
def bst_remove_rec (cmp : α → α → Int) : CTree α → α → CTree α
  | leaf, _ => leaf
  | node d l r, e =>
    if 0 < cmp d e then node d (bst_remove_rec cmp l e) r
    else if cmp d e < 0 then node d l (bst_remove_rec cmp r e)
    else
      match l, r with
      | leaf, leaf => leaf
      | node dl ll rl, leaf => node dl ll rl
      | leaf, node dr lr rr => node dr lr rr
      | node dl ll rl, node dr lr rr =>
          node (find_max dl rl)
            (bst_remove_rec cmp (node dl ll rl) (find_max dl rl))
            (node dr lr rr)

/-- `bst_remove(tree, element)`: the source discards the pointer returned by
`bst_remove_rec`, so `tree->root` keeps its old value.  When the top-level call
returns a pointer other than the root — i.e. the root matches (`compare == 0`)
and has at most one child, so the root node is freed — `tree->root` dangles
into freed memory and the tree state is undefined (`none`).  In every other
case the returned pointer is the root itself and discarding it is harmless. -/
def bst_remove (cmp : α → α → Int) (t : CTree α) (e : α) : Option (CTree α) :=
  match t with
  | leaf => some leaf
  | node d l r =>
    if cmp d e = 0 then
      match l, r with
      | node dl ll rl, node dr lr rr =>
          some (bst_remove_rec cmp (node d (node dl ll rl) (node dr lr rr)) e)
      | _, _ => none
    else some (bst_remove_rec cmp (node d l r) e)

/-- The subtree at which the comparison walk shared by `bst_remove_rec` (and,
as intended, `bst_search_rec`) first matches: strictly greater → left,
strictly less → right, zero → this node. -/
def removeMatch (cmp : α → α → Int) : CTree α → α → Option (CTree α)
  | leaf, _ => none
  | node d l r, e =>
    if 0 < cmp d e then removeMatch cmp l e
    else if cmp d e < 0 then removeMatch cmp r e
    else some (node d l r)

/-- Inserting a list of elements left to right into an initially empty tree. -/
def insertList (cmp : α → α → Int) (xs : List α) : CTree α :=
  xs.foldl (bst_add cmp) leaf

/-- Boolean "every value in the tree satisfies `p`". -/
def allB (p : α → Bool) : CTree α → Bool
  | leaf => true
  | node d l r => p d && allB p l && allB p r

/-- The BST ordering invariant of §3: at every node `n`, each element `e` of
the left subtree satisfies `ordering(n.value, e) >= 0` and each element of the
right subtree satisfies `ordering(n.value, e) < 0`. -/
def isBst (cmp : α → α → Int) : CTree α → Bool
  | leaf => true
  | node d l r =>
      allB (fun e => decide (0 ≤ cmp d e)) l &&
      allB (fun e => decide (cmp d e < 0)) r &&
      isBst cmp l && isBst cmp r

/-- The comparison function contract of §6: a consistent total order — the sign
of `cmp a b` flips with the argument order (antisymmetry/consistency) and
non-positivity (`a ≤ b`) is transitive. -/
def CmpLawful (cmp : α → α → Int) : Prop :=
  (∀ a b, 0 ≤ cmp a b ↔ cmp b a ≤ 0) ∧
  (∀ a b c, cmp a b ≤ 0 → cmp b c ≤ 0 → cmp a c ≤ 0)

/-- Natural ordering on mathematical integers, as a C comparison function. -/
def intCmp (a b : Int) : Int := a - b

/-- `bst_add` attaches the fresh node somewhere in the tree: exactly one absent
link (a node's absent child, or the root link of an empty tree) is replaced by
the fresh leaf node `node x leaf leaf`; every other link and every existing
value is untouched. -/
inductive AttachLeaf (x : α) : CTree α → CTree α → Prop where
  | here : AttachLeaf x leaf (node x leaf leaf)
  | goLeft {d : α} {l l2 r : CTree α} :
      AttachLeaf x l l2 → AttachLeaf x (node d l r) (node d l2 r)
  | goRight {d : α} {l r r2 : CTree α} :
      AttachLeaf x r r2 → AttachLeaf x (node d l r) (node d l r2)

theorem intCmp_lawful : CmpLawful intCmp := by
  constructor
  · intro a b
    simp only [intCmp]
    omega
  · intro a b c
    simp only [intCmp]
    omega

theorem cmp_refl {cmp : α → α → Int} (hl : CmpLawful cmp) (a : α) : cmp a a = 0 := by
  have h := hl.1 a a
  omega

theorem cmp_le_lt {cmp : α → α → Int} (hl : CmpLawful cmp) {a b c : α}
    (h1 : cmp a b ≤ 0) (h2 : cmp b c < 0) : cmp a c < 0 := by
  by_contra h
  push_neg at h
  have h3 := (hl.1 a c).mp h
  have h4 := hl.2 c a b h3 h1
  have h5 := (hl.1 b c).mpr h4
  omega

theorem cmp_lt_le {cmp : α → α → Int} (hl : CmpLawful cmp) {a b c : α}
    (h1 : cmp a b < 0) (h2 : cmp b c ≤ 0) : cmp a c < 0 := by
  by_contra h
  push_neg at h
  have h3 := (hl.1 a c).mp h
  have h4 := hl.2 b c a h2 h3
  have h5 := (hl.1 a b).mpr h4
  omega

theorem allB_iff (p : α → Bool) (t : CTree α) :
    allB p t = true ↔ ∀ v ∈ bst_iter_rec t, p v = true := by
  induction t with
  | leaf => simp [allB, bst_iter_rec]
  | node d l r ihl ihr =>
    simp only [allB, bst_iter_rec, Bool.and_eq_true, ihl, ihr, List.mem_append,
      List.mem_cons]
    constructor
    · rintro ⟨⟨hd, hl2⟩, hr2⟩ v hv
      rcases hv with h | h | h
      · exact hl2 v h
      · exact h ▸ hd
      · exact hr2 v h
    · intro h
      exact ⟨⟨h d (Or.inr (Or.inl rfl)), fun v hv => h v (Or.inl hv)⟩,
        fun v hv => h v (Or.inr (Or.inr hv))⟩

theorem isBst_node_iff (cmp : α → α → Int) (d : α) (l r : CTree α) :
    isBst cmp (node d l r) = true ↔
      (∀ v ∈ bst_iter_rec l, 0 ≤ cmp d v) ∧ (∀ v ∈ bst_iter_rec r, cmp d v < 0) ∧
      isBst cmp l = true ∧ isBst cmp r = true := by
  simp only [isBst, Bool.and_eq_true, allB_iff, decide_eq_true_eq]
  tauto

theorem bst_add_eq (cmp : α → α → Int) (t : CTree α) (x : α) :
    bst_add cmp t x = bst_add_rec cmp x t := by
  cases t <;> rfl

theorem bst_size_eq (t : CTree α) : bst_size t = bst_size_rec t := by
  cases t <;> rfl

theorem bst_iter_eq (t : CTree α) : bst_iter t = bst_iter_rec t := by
  cases t <;> rfl

theorem bst_remove_rec_node (cmp : α → α → Int) (d : α) (l r : CTree α) (e : α) :
    bst_remove_rec cmp (node d l r) e =
      if 0 < cmp d e then node d (bst_remove_rec cmp l e) r
      else if cmp d e < 0 then node d l (bst_remove_rec cmp r e)
      else
        match l, r with
        | leaf, leaf => leaf
        | node dl ll rl, leaf => node dl ll rl
        | leaf, node dr lr rr => node dr lr rr
        | node dl ll rl, node dr lr rr =>
            node (find_max dl rl)
              (bst_remove_rec cmp (node dl ll rl) (find_max dl rl))
              (node dr lr rr) := by
  rw [bst_remove_rec.eq_def]

theorem allB_bst_add_rec (cmp : α → α → Int) (p : α → Bool) (x : α) (t : CTree α)
    (ht : allB p t = true) (hx : p x = true) :
    allB p (bst_add_rec cmp x t) = true := by
  induction t with
  | leaf => simp [bst_add_rec, allB, hx]
  | node d l r ihl ihr =>
    simp only [allB, Bool.and_eq_true] at ht
    obtain ⟨⟨hd, hl2⟩, hr2⟩ := ht
    simp only [bst_add_rec]
    split
    · simp [allB, hd, ihl hl2, hr2]
    · simp [allB, hd, hl2, ihr hr2]

theorem isBst_bst_add_rec (cmp : α → α → Int) (x : α) (t : CTree α)
    (ht : isBst cmp t = true) : isBst cmp (bst_add_rec cmp x t) = true := by
  induction t with
  | leaf => simp [bst_add_rec, isBst, allB]
  | node d l r ihl ihr =>
    simp only [isBst, Bool.and_eq_true] at ht
    obtain ⟨⟨⟨hal, har⟩, hbl⟩, hbr⟩ := ht
    simp only [bst_add_rec]
    by_cases h : 0 ≤ cmp d x
    · rw [if_pos h]
      simp only [isBst, Bool.and_eq_true]
      exact ⟨⟨⟨allB_bst_add_rec cmp _ x l hal (by simpa using h), har⟩, ihl hbl⟩, hbr⟩
    · rw [if_neg h]
      simp only [isBst, Bool.and_eq_true]
      refine ⟨⟨⟨hal, allB_bst_add_rec cmp _ x r har ?_⟩, hbl⟩, ihr hbr⟩
      simp only [decide_eq_true_eq]
      omega

theorem isBst_foldl (cmp : α → α → Int) (xs : List α) (t : CTree α)
    (ht : isBst cmp t = true) :
    isBst cmp (List.foldl (bst_add cmp) t xs) = true := by
  induction xs generalizing t with
  | nil => simpa using ht
  | cons x xs ih =>
    simp only [List.foldl_cons]
    exact ih _ (by rw [bst_add_eq]; exact isBst_bst_add_rec cmp x t ht)

theorem attachLeaf_bst_add_rec (cmp : α → α → Int) (x : α) (t : CTree α) :
    AttachLeaf x t (bst_add_rec cmp x t) := by
  induction t with
  | leaf => exact AttachLeaf.here
  | node d l r ihl ihr =>
    simp only [bst_add_rec]
    split
    · exact AttachLeaf.goLeft ihl
    · exact AttachLeaf.goRight ihr

theorem size_bst_add_rec (cmp : α → α → Int) (x : α) (t : CTree α) :
    bst_size_rec (bst_add_rec cmp x t) = bst_size_rec t + 1 := by
  induction t with
  | leaf => rfl
  | node d l r ihl ihr =>
    simp only [bst_add_rec]
    split
    · simp only [bst_size_rec, ihl]
      omega
    · simp only [bst_size_rec, ihr]
      omega

theorem bst_remove_rec_absent (cmp : α → α → Int) (t : CTree α) (e : α)
    (h : ∀ v ∈ bst_iter_rec t, cmp v e ≠ 0) :
    bst_remove_rec cmp t e = t := by
  induction t with
  | leaf => rfl
  | node d l r ihl ihr =>
    have hd : cmp d e ≠ 0 := h d (by simp [bst_iter_rec])
    have hl2 : ∀ v ∈ bst_iter_rec l, cmp v e ≠ 0 := fun v hv =>
      h v (by simp [bst_iter_rec, hv])
    have hr2 : ∀ v ∈ bst_iter_rec r, cmp v e ≠ 0 := fun v hv =>
      h v (by simp [bst_iter_rec, hv])
    rw [bst_remove_rec_node]
    rcases lt_trichotomy (cmp d e) 0 with hc | hc | hc
    · rw [if_neg (by omega), if_pos hc, ihr hr2]
    · exact absurd hc hd
    · rw [if_pos hc, ihl hl2]

theorem length_bst_iter_rec (t : CTree α) :
    (bst_iter_rec t).length = bst_size_rec t := by
  induction t with
  | leaf => rfl
  | node d l r ihl ihr =>
    simp only [bst_iter_rec, bst_size_rec, List.length_append, List.length_cons, ihl, ihr]
    omega

theorem pairwise_bst_iter_rec {cmp : α → α → Int} (hl : CmpLawful cmp) (t : CTree α)
    (hb : isBst cmp t = true) :
    List.Pairwise (fun a b => cmp a b ≤ 0) (bst_iter_rec t) := by
  induction t with
  | leaf => simp [bst_iter_rec]
  | node d l r ihl ihr =>
    rw [isBst_node_iff] at hb
    obtain ⟨hbl, hbr, hl1, hr1⟩ := hb
    simp only [bst_iter_rec]
    rw [List.pairwise_append]
    refine ⟨ihl hl1, ?_, ?_⟩
    · rw [List.pairwise_cons]
      exact ⟨fun b hb2 => le_of_lt (hbr b hb2), ihr hr1⟩
    · intro a ha b hb2
      have had : cmp a d ≤ 0 := (hl.1 d a).mp (hbl a ha)
      rcases List.mem_cons.mp hb2 with h | h
      · exact h ▸ had
      · exact le_of_lt (cmp_le_lt hl had (hbr b h))

theorem find_max_mem (d : α) (r : CTree α) :
    find_max d r = d ∨ find_max d r ∈ bst_iter_rec r := by
  induction r generalizing d with
  | leaf => exact Or.inl rfl
  | node d2 l2 r2 ihl ihr =>
    right
    simp only [find_max, bst_iter_rec, List.mem_append, List.mem_cons]
    rcases ihr d2 with h | h
    · exact Or.inr (Or.inl h)
    · exact Or.inr (Or.inr h)

theorem find_max_mem_node (d : α) (l r : CTree α) :
    find_max d r ∈ bst_iter_rec (node d l r) := by
  simp only [bst_iter_rec, List.mem_append, List.mem_cons]
  rcases find_max_mem d r with h | h
  · exact Or.inr (Or.inl h)
  · exact Or.inr (Or.inr h)

theorem find_max_ge {cmp : α → α → Int} (hl : CmpLawful cmp) :
    ∀ (r : CTree α) (d : α) (l : CTree α), isBst cmp (node d l r) = true →
      ∀ v ∈ bst_iter_rec (node d l r), 0 ≤ cmp (find_max d r) v := by
  intro r
  induction r with
  | leaf =>
    intro d l hb v hv
    rw [isBst_node_iff] at hb
    simp only [find_max]
    simp only [bst_iter_rec, List.mem_append, List.mem_cons] at hv
    rcases hv with h | h | h
    · exact hb.1 v h
    · subst h
      have := cmp_refl hl v
      omega
    · simp [bst_iter_rec] at h
  | node dr lr rr ihl2 ihr2 =>
    intro d l hb v hv
    rw [isBst_node_iff] at hb
    obtain ⟨hbl, hbr, hl1, hr1⟩ := hb
    simp only [find_max]
    have hmax := ihr2 dr lr hr1
    have hmem : find_max dr rr ∈ bst_iter_rec (node dr lr rr) := find_max_mem_node dr lr rr
    have hdm : cmp d (find_max dr rr) < 0 := hbr _ hmem
    simp only [bst_iter_rec, List.mem_append, List.mem_cons] at hv
    rcases hv with h | h | h
    · have h1 : cmp v d ≤ 0 := (hl.1 d v).mp (hbl v h)
      have h2 : cmp v (find_max dr rr) ≤ 0 := hl.2 v d _ h1 (by omega)
      exact (hl.1 _ v).mpr h2
    · subst h
      exact (hl.1 _ v).mpr (by omega)
    · exact hmax v (by simp only [bst_iter_rec, List.mem_append, List.mem_cons]; exact h)

theorem removeMatch_node (cmp : α → α → Int) (d : α) (l r : CTree α) (e : α) :
    removeMatch cmp (node d l r) e =
      if 0 < cmp d e then removeMatch cmp l e
      else if cmp d e < 0 then removeMatch cmp r e
      else some (node d l r) := by
  rw [removeMatch.eq_def]

theorem removeMatch_cmp_zero (cmp : α → α → Int) (t : CTree α) (e d : α)
    (L R : CTree α) (h : removeMatch cmp t e = some (node d L R)) : cmp d e = 0 := by
  induction t with
  | leaf => simp [removeMatch] at h
  | node d0 l0 r0 ihl ihr =>
    rw [removeMatch_node] at h
    by_cases h1 : 0 < cmp d0 e
    · exact ihl (by rwa [if_pos h1] at h)
    · rw [if_neg h1] at h
      by_cases h2 : cmp d0 e < 0
      · exact ihr (by rwa [if_pos h2] at h)
      · rw [if_neg h2] at h
        injection h with h3
        injection h3 with hd hL hR
        subst hd
        omega

theorem removeMatch_isBst (cmp : α → α → Int) (t : CTree α) (e : α) (s : CTree α)
    (h : removeMatch cmp t e = some s) (hb : isBst cmp t = true) :
    isBst cmp s = true := by
  induction t with
  | leaf => simp [removeMatch] at h
  | node d0 l0 r0 ihl ihr =>
    rw [isBst_node_iff] at hb
    rw [removeMatch_node] at h
    by_cases h1 : 0 < cmp d0 e
    · exact ihl (by rwa [if_pos h1] at h) hb.2.2.1
    · rw [if_neg h1] at h
      by_cases h2 : cmp d0 e < 0
      · exact ihr (by rwa [if_pos h2] at h) hb.2.2.2
      · rw [if_neg h2] at h
        injection h with h3
        rw [← h3, isBst_node_iff]
        exact hb

theorem removeMatch_find_max {cmp : α → α → Int} (hl : CmpLawful cmp) :
    ∀ (r : CTree α) (d : α) (l : CTree α), isBst cmp (node d l r) = true →
      ∃ m2 l2, removeMatch cmp (node d l r) (find_max d r) = some (node m2 l2 leaf) := by
  intro r
  induction r with
  | leaf =>
    intro d l hb
    refine ⟨d, l, ?_⟩
    simp only [find_max]
    rw [removeMatch_node, cmp_refl hl]
    norm_num
  | node dr lr rr ihl2 ihr2 =>
    intro d l hb
    rw [isBst_node_iff] at hb
    obtain ⟨hbl, hbr, hl1, hr1⟩ := hb
    have hdm : cmp d (find_max dr rr) < 0 := hbr _ (find_max_mem_node dr lr rr)
    obtain ⟨m2, l2, hm⟩ := ihr2 dr lr hr1
    refine ⟨m2, l2, ?_⟩
    simp only [find_max]
    rw [removeMatch_node, if_neg (by omega), if_pos hdm]
    exact hm

theorem bst_remove_rec_find_max {cmp : α → α → Int} (hl : CmpLawful cmp) :
    ∀ (r : CTree α) (d : α) (l : CTree α), isBst cmp (node d l r) = true →
      bst_size_rec (bst_remove_rec cmp (node d l r) (find_max d r)) + 1
          = bst_size_rec (node d l r)
      ∧ isBst cmp (bst_remove_rec cmp (node d l r) (find_max d r)) = true
      ∧ ∀ v ∈ bst_iter_rec (bst_remove_rec cmp (node d l r) (find_max d r)),
          v ∈ bst_iter_rec (node d l r) := by
  intro r
  induction r with
  | leaf =>
    intro d l hb
    rw [isBst_node_iff] at hb
    have hrem : bst_remove_rec cmp (node d l leaf) (find_max d leaf) = l := by
      simp only [find_max]
      rw [bst_remove_rec_node, cmp_refl hl]
      cases l <;> simp
    rw [hrem]
    refine ⟨?_, hb.2.2.1, ?_⟩
    · simp only [bst_size_rec]
      omega
    · intro v hv
      simp only [bst_iter_rec, List.mem_append, List.mem_cons]
      exact Or.inl hv
  | node dr lr rr ihl2 ihr2 =>
    intro d l hb
    rw [isBst_node_iff] at hb
    obtain ⟨hbl, hbr, hl1, hr1⟩ := hb
    have hdm : cmp d (find_max dr rr) < 0 := hbr _ (find_max_mem_node dr lr rr)
    obtain ⟨hsz, hbst2, hsub⟩ := ihr2 dr lr hr1
    simp only [find_max] at hsz hbst2 hsub ⊢
    have hrem : bst_remove_rec cmp (node d l (node dr lr rr)) (find_max dr rr)
        = node d l (bst_remove_rec cmp (node dr lr rr) (find_max dr rr)) := by
      rw [bst_remove_rec_node, if_neg (by omega), if_pos hdm]
    rw [hrem]
    refine ⟨?_, ?_, ?_⟩
    · simp only [bst_size_rec] at hsz ⊢
      omega
    · rw [isBst_node_iff]
      exact ⟨hbl, fun v hv => hbr v (hsub v hv), hl1, hbst2⟩
    · intro v hv
      simp only [bst_iter_rec, List.mem_append, List.mem_cons] at hv ⊢
      rcases hv with hv | hv | hv
      · exact Or.inl hv
      · exact Or.inr (Or.inl hv)
      · refine Or.inr (Or.inr ?_)
        simpa only [bst_iter_rec, List.mem_append, List.mem_cons] using hsub v hv

theorem bst_remove_rec_matched_two {cmp : α → α → Int} (hl : CmpLawful cmp) :
    ∀ (t : CTree α) (e d dl dr : α) (ll rl lr rr : CTree α),
      isBst cmp t = true →
      removeMatch cmp t e = some (node d (node dl ll rl) (node dr lr rr)) →
      bst_size_rec (bst_remove_rec cmp t e) + 1 = bst_size_rec t
      ∧ isBst cmp (bst_remove_rec cmp t e) = true
      ∧ ∀ v ∈ bst_iter_rec (bst_remove_rec cmp t e), v ∈ bst_iter_rec t := by
  intro t
  induction t with
  | leaf =>
    intro e d dl dr ll rl lr rr hb h
    simp [removeMatch] at h
  | node d0 l0 r0 ihl ihr =>
    intro e d dl dr ll rl lr rr hb h
    rw [isBst_node_iff] at hb
    obtain ⟨hbl, hbr, hl1, hr1⟩ := hb
    rw [removeMatch_node] at h
    by_cases h1 : 0 < cmp d0 e
    · rw [if_pos h1] at h
      obtain ⟨hsz, hbst2, hsub⟩ := ihl e d dl dr ll rl lr rr hl1 h
      have hrem : bst_remove_rec cmp (node d0 l0 r0) e
          = node d0 (bst_remove_rec cmp l0 e) r0 := by
        rw [bst_remove_rec_node, if_pos h1]
      rw [hrem]
      refine ⟨?_, ?_, ?_⟩
      · simp only [bst_size_rec]
        omega
      · rw [isBst_node_iff]
        exact ⟨fun v hv => hbl v (hsub v hv), hbr, hbst2, hr1⟩
      · intro v hv
        simp only [bst_iter_rec, List.mem_append, List.mem_cons] at hv ⊢
        rcases hv with hv | hv | hv
        · exact Or.inl (hsub v hv)
        · exact Or.inr (Or.inl hv)
        · exact Or.inr (Or.inr hv)
    · rw [if_neg h1] at h
      by_cases h2 : cmp d0 e < 0
      · rw [if_pos h2] at h
        obtain ⟨hsz, hbst2, hsub⟩ := ihr e d dl dr ll rl lr rr hr1 h
        have hrem : bst_remove_rec cmp (node d0 l0 r0) e
            = node d0 l0 (bst_remove_rec cmp r0 e) := by
          rw [bst_remove_rec_node, if_neg h1, if_pos h2]
        rw [hrem]
        refine ⟨?_, ?_, ?_⟩
        · simp only [bst_size_rec]
          omega
        · rw [isBst_node_iff]
          exact ⟨hbl, fun v hv => hbr v (hsub v hv), hl1, hbst2⟩
        · intro v hv
          simp only [bst_iter_rec, List.mem_append, List.mem_cons] at hv ⊢
          rcases hv with hv | hv | hv
          · exact Or.inl hv
          · exact Or.inr (Or.inl hv)
          · exact Or.inr (Or.inr (hsub v hv))
      · rw [if_neg h2] at h
        injection h with h3
        injection h3 with hd hL hR
        subst hd
        subst hL
        subst hR
        have hrem : bst_remove_rec cmp (node d0 (node dl ll rl) (node dr lr rr)) e
            = node (find_max dl rl)
                (bst_remove_rec cmp (node dl ll rl) (find_max dl rl))
                (node dr lr rr) := by
          rw [bst_remove_rec_node, if_neg h1, if_neg h2]
        rw [hrem]
        obtain ⟨hsz, hbst2, hsub⟩ := bst_remove_rec_find_max hl rl dl ll hl1
        have hmem : find_max dl rl ∈ bst_iter_rec (node dl ll rl) :=
          find_max_mem_node dl ll rl
        refine ⟨?_, ?_, ?_⟩
        · simp only [bst_size_rec] at hsz ⊢
          omega
        · rw [isBst_node_iff]
          refine ⟨fun v hv => find_max_ge hl rl dl ll hl1 v (hsub v hv), ?_, hbst2, hr1⟩
          intro v hv
          have h5 : 0 ≤ cmp d0 (find_max dl rl) := hbl _ hmem
          have h6 : cmp (find_max dl rl) d0 ≤ 0 := (hl.1 d0 _).mp h5
          exact cmp_le_lt hl h6 (hbr v hv)
        · intro v hv
          simp only [bst_iter_rec, List.mem_append, List.mem_cons] at hv ⊢
          rcases hv with hv | hv | hv
          · refine Or.inl ?_
            simpa only [bst_iter_rec, List.mem_append, List.mem_cons] using hsub v hv
          · refine Or.inl ?_
            subst hv
            simpa only [bst_iter_rec, List.mem_append, List.mem_cons] using hmem
          · exact Or.inr (Or.inr hv)

theorem bst_remove_eq_some (cmp : α → α → Int) (t : CTree α) (e d dl dr : α)
    (ll rl lr rr : CTree α)
    (h : removeMatch cmp t e = some (node d (node dl ll rl) (node dr lr rr))) :
    bst_remove cmp t e = some (bst_remove_rec cmp t e) := by
  cases t with
  | leaf => simp [removeMatch] at h
  | node d0 l0 r0 =>
    simp only [bst_remove]
    by_cases h0 : cmp d0 e = 0
    · rw [removeMatch_node, if_neg (by omega), if_neg (by omega)] at h
      injection h with h3
      injection h3 with hd hL hR
      subst hd
      subst hL
      subst hR
      rw [if_pos h0]
    · rw [if_neg h0]

/-- C1 (code_bug evidence): `bst_search` is claimed to return a matching node
for every element with a stored equal and `NULL` otherwise, but
`bst_search_rec`'s descending branches drop the recursive result and fall off
the end of the non-void function, so whenever the walk must descend the
returned pointer is indeterminate.  On the tree built by inserting `[2, 1]`,
searching for the present element `1` yields an undefined return (`none`),
while searching for `2` — a match at the root, where the sole `return` executes
— is the only defined case. -/
theorem search_descent_undefined_eval :
    bst_search intCmp (insertList intCmp [2, 1]) 1 = none ∧
    bst_search intCmp (insertList intCmp [2, 1]) 2
      = some (some (node 2 (node 1 leaf leaf) leaf)) := by
  decide

/-- C2 (code_bug evidence): removing the root of a single-node tree is claimed
to empty the tree, but `bst_remove` discards the pointer returned by
`bst_remove_rec`, which frees the root node and returns `NULL`; `tree->root`
is left dangling into freed memory, so the tree state afterwards is undefined
(`none`) rather than empty — subsequent `bst_search`/`bst_size` dereference a
freed node. -/
theorem remove_root_single_node_eval :
    bst_size (insertList intCmp [5]) = 1 ∧
    bst_remove intCmp (insertList intCmp [5]) 5 = none := by
  decide

/-- C3: for every comparison function and every sequence of `bst_add`
insertions into an initially empty tree, the BST ordering invariant holds
after each insertion (i.e. for every prefix of the sequence): each node's left
subtree holds only elements comparing `>= 0` against it, each right subtree
only elements comparing `< 0`. -/
theorem add_preserves_bst_invariant (cmp : α → α → Int) (xs : List α) (n : Nat) :
    isBst cmp (insertList cmp (xs.take n)) = true :=
  isBst_foldl cmp (xs.take n) leaf rfl

/-- C4 (code_bug evidence): of the concrete integer scenario, everything holds
— size 7 after inserting `[5, 3, 8, 1, 4, 7, 9]`, in-order trace
`[1, 3, 4, 5, 7, 8, 9]`, `remove(5)` relocating the left-subtree maximum 4
into the root slot, final trace `[1, 3, 4, 7, 8, 9]` and size 6 — except
`search(6)`, which the claim says returns "not found" but whose actual return
value is undefined (`none`): `bst_search_rec` descends right at the root
(5 < 6) and falls off the end of the function without returning. -/
theorem integer_scenario_eval :
    bst_size (insertList intCmp [5, 3, 8, 1, 4, 7, 9]) = 7 ∧
    bst_search intCmp (insertList intCmp [5, 3, 8, 1, 4, 7, 9]) 6 = none ∧
    bst_iter (insertList intCmp [5, 3, 8, 1, 4, 7, 9]) = [1, 3, 4, 5, 7, 8, 9] ∧
    bst_remove intCmp (insertList intCmp [5, 3, 8, 1, 4, 7, 9]) 5
      = some (node 4 (node 3 (node 1 leaf leaf) leaf)
          (node 8 (node 7 leaf leaf) (node 9 leaf leaf))) ∧
    bst_iter (node 4 (node 3 (node 1 leaf leaf) leaf)
        (node 8 (node 7 leaf leaf) (node 9 leaf leaf)) : CTree Int)
      = [1, 3, 4, 7, 8, 9] ∧
    bst_size (node 4 (node 3 (node 1 leaf leaf) leaf)
        (node 8 (node 7 leaf leaf) (node 9 leaf leaf)) : CTree Int) = 6 := by
  decide

/-- C5 (code_bug evidence): size after N insertions equals N (shown for
`[5, 3]`), and removal of a matching non-root element decreases size by one,
but removal of a matching element at a root with at most one child leaves the
tree undefined instead of one element smaller: `bst_remove` discards
`bst_remove_rec`'s returned pointer, so after `remove(5)` on the two-element
tree rooted at 5, `tree->root` dangles into the freed root node and a
subsequent `bst_size` call dereferences freed memory. -/
theorem size_after_remove_eval :
    bst_size (insertList intCmp [5, 3]) = 2 ∧
    bst_remove intCmp (insertList intCmp [5, 3]) 3 = some (node 5 leaf leaf) ∧
    bst_size (node 5 leaf leaf : CTree Int) = 1 ∧
    bst_remove intCmp (insertList intCmp [5, 3]) 5 = none := by
  decide

/-- C6: on a tree satisfying the BST invariant under a lawful comparison, a
removal whose matched node has two children (1) keeps the root pointer valid,
(2) rewrites the matched node into one carrying the value of the left
subtree's rightmost node (`find_max`, the in-order predecessor) with that value
removed from the left subtree by the same algorithm, (3) makes that inner
removal match a node with no right child (the no-child or one-child case),
(4) decreases the element count by exactly one, and (5) preserves the BST
ordering invariant. -/
theorem remove_two_children_spec (cmp : α → α → Int) (hlaw : CmpLawful cmp)
    (t : CTree α) (e d dl dr : α) (ll rl lr rr : CTree α)
    (hbst : isBst cmp t = true)
    (hmatch : removeMatch cmp t e = some (node d (node dl ll rl) (node dr lr rr))) :
    bst_remove cmp t e = some (bst_remove_rec cmp t e)
    ∧ bst_remove_rec cmp (node d (node dl ll rl) (node dr lr rr)) e
        = node (find_max dl rl)
            (bst_remove_rec cmp (node dl ll rl) (find_max dl rl))
            (node dr lr rr)
    ∧ (∃ m2 l2, removeMatch cmp (node dl ll rl) (find_max dl rl)
          = some (node m2 l2 leaf))
    ∧ bst_size (bst_remove_rec cmp t e) + 1 = bst_size t
    ∧ isBst cmp (bst_remove_rec cmp t e) = true := by
  have hzero : cmp d e = 0 := removeMatch_cmp_zero cmp t e d _ _ hmatch
  have hbm := removeMatch_isBst cmp t e _ hmatch hbst
  rw [isBst_node_iff] at hbm
  obtain ⟨hsz, hbst2, hsub⟩ :=
    bst_remove_rec_matched_two hlaw t e d dl dr ll rl lr rr hbst hmatch
  refine ⟨bst_remove_eq_some cmp t e d dl dr ll rl lr rr hmatch, ?_, ?_, ?_, hbst2⟩
  · rw [bst_remove_rec_node, if_neg (by omega), if_neg (by omega)]
  · exact removeMatch_find_max hlaw rl dl ll hbm.2.2.1
  · rw [bst_size_eq, bst_size_eq]
    exact hsz

/-- Witness for `remove_two_children_spec`: the seven-integer scenario tree,
removing the root value 5, whose matched node has the two children rooted at 3
and 8. -/
theorem remove_two_children_spec_witness :
    bst_remove intCmp (insertList intCmp [5, 3, 8, 1, 4, 7, 9]) 5
        = some (bst_remove_rec intCmp (insertList intCmp [5, 3, 8, 1, 4, 7, 9]) 5)
    ∧ bst_remove_rec intCmp
        (node 5 (node 3 (node 1 leaf leaf) (node 4 leaf leaf))
          (node 8 (node 7 leaf leaf) (node 9 leaf leaf))) 5
        = node (find_max 3 (node 4 leaf leaf))
            (bst_remove_rec intCmp (node 3 (node 1 leaf leaf) (node 4 leaf leaf))
              (find_max 3 (node 4 leaf leaf)))
            (node 8 (node 7 leaf leaf) (node 9 leaf leaf))
    ∧ (∃ m2 l2, removeMatch intCmp (node 3 (node 1 leaf leaf) (node 4 leaf leaf))
          (find_max 3 (node 4 leaf leaf)) = some (node m2 l2 leaf))
    ∧ bst_size (bst_remove_rec intCmp (insertList intCmp [5, 3, 8, 1, 4, 7, 9]) 5) + 1
        = bst_size (insertList intCmp [5, 3, 8, 1, 4, 7, 9])
    ∧ isBst intCmp (bst_remove_rec intCmp (insertList intCmp [5, 3, 8, 1, 4, 7, 9]) 5)
        = true :=
  remove_two_children_spec intCmp intCmp_lawful
    (insertList intCmp [5, 3, 8, 1, 4, 7, 9]) 5 5 3 8
    (node 1 leaf leaf) (node 4 leaf leaf) (node 7 leaf leaf) (node 9 leaf leaf)
    (by decide) (by decide)

/-- C7: on a tree satisfying the BST invariant under a lawful comparison,
`bst_iter` performs an in-order traversal — it visits exactly `bst_size tree`
values, in non-decreasing order under the comparison; the traversal of a node
is left subtree, then the node's value, then right subtree; and it is a no-op
on an empty tree. -/
theorem iter_inorder_spec (cmp : α → α → Int) (hlaw : CmpLawful cmp)
    (t : CTree α) (hbst : isBst cmp t = true) :
    (bst_iter t).length = bst_size t
    ∧ List.Pairwise (fun a b => cmp a b ≤ 0) (bst_iter t)
    ∧ (∀ (d2 : α) (l2 r2 : CTree α),
        bst_iter_rec (node d2 l2 r2) = bst_iter_rec l2 ++ d2 :: bst_iter_rec r2)
    ∧ bst_iter (leaf : CTree α) = [] := by
  rw [bst_iter_eq, bst_size_eq]
  exact ⟨length_bst_iter_rec t, pairwise_bst_iter_rec hlaw t hbst,
    fun d2 l2 r2 => rfl, rfl⟩

/-- Witness for `iter_inorder_spec` at the seven-integer scenario tree. -/
theorem iter_inorder_spec_witness :
    (bst_iter (insertList intCmp [5, 3, 8, 1, 4, 7, 9])).length
        = bst_size (insertList intCmp [5, 3, 8, 1, 4, 7, 9])
    ∧ List.Pairwise (fun a b => intCmp a b ≤ 0)
        (bst_iter (insertList intCmp [5, 3, 8, 1, 4, 7, 9]))
    ∧ (∀ (d2 : Int) (l2 r2 : CTree Int),
        bst_iter_rec (node d2 l2 r2) = bst_iter_rec l2 ++ d2 :: bst_iter_rec r2)
    ∧ bst_iter (leaf : CTree Int) = [] :=
  iter_inorder_spec intCmp intCmp_lawful (insertList intCmp [5, 3, 8, 1, 4, 7, 9])
    (by decide)

/-- C8: when no value stored in the tree compares equal to the queried element
(in particular on the empty tree), `bst_remove` is a no-op: the resulting tree
is defined and is exactly the original — same shape, same value at every
node. -/
theorem remove_absent_noop (cmp : α → α → Int) (t : CTree α) (e : α)
    (h : ∀ v ∈ bst_iter_rec t, cmp v e ≠ 0) :
    bst_remove cmp t e = some t := by
  cases t with
  | leaf => rfl
  | node d l r =>
    have hd : cmp d e ≠ 0 := h d (by simp [bst_iter_rec])
    simp only [bst_remove]
    rw [if_neg hd, bst_remove_rec_absent cmp _ e h]

/-- Witness for `remove_absent_noop`: removing the absent element 6 from the
seven-integer scenario tree leaves it untouched. -/
theorem remove_absent_noop_witness :
    bst_remove intCmp (insertList intCmp [5, 3, 8, 1, 4, 7, 9]) 6
      = some (insertList intCmp [5, 3, 8, 1, 4, 7, 9]) :=
  remove_absent_noop intCmp (insertList intCmp [5, 3, 8, 1, 4, 7, 9]) 6 (by decide)

/-- C9 (code_bug evidence): `bst_add` is claimed (and its header comment
promises) to detect an absent `element` as a caller-contract violation and
abort, but the implementation only asserts `tree`; with `element == NULL`
control proceeds into `bst_create_node`'s `memcpy(node->data, NULL,
data_size)` — undefined behavior, not a detected abort.  A `NULL` tree, by
contrast, is detected by `assert(tree)`. -/
theorem add_null_element_eval :
    bst_add_c intCmp (some (leaf : CTree Int)) none = CResult.undef ∧
    bst_add_c intCmp (none : Option (CTree Int)) (some 5) = CResult.assertFail := by
  decide

/-- C10: every `bst_add` call attaches exactly one new node, always as a leaf
(both child links absent at attachment): exactly one absent link — a node's
absent child, or the root link of an empty tree — is replaced by the fresh node
`node x leaf leaf`, every pre-existing node keeps its value and its other
links (the `AttachLeaf` relation), and the node count grows by exactly one. -/
theorem add_attaches_one_leaf (cmp : α → α → Int) (t : CTree α) (x : α) :
    AttachLeaf x t (bst_add cmp t x) ∧ bst_size (bst_add cmp t x) = bst_size t + 1 := by
  rw [bst_add_eq, bst_size_eq, bst_size_eq]
  exact ⟨attachLeaf_bst_add_rec cmp x t, size_bst_add_rec cmp x t⟩

end BST
